import Mathlib

set_option maxHeartbeats 1000000

/-! # Verification of the youtube_transcript caption pipeline

Shallow embedding of `src/lib/fetch-youtube.ts` (and of the API route
`src/pages/api/youtube.ts`) of the youtube_transcript repository, with
theorems about the documented behaviour.

Modelling conventions:
* JS strings are `String` / `List Char`; the concrete regular expressions of
  the source are implemented as explicit scanners over `List Char` with the
  same backtracking order.
* JS numbers read from caption attributes are decimal strings; they are
  modelled exactly as scaled integers (numerator over a power-of-ten
  denominator) and `Math.round` becomes integer floor division — no theorem
  below depends on IEEE-754 artefacts; start/duration fields are `Int`.
* Thrown `Error`s are `Except.error` carrying the message; network calls are
  modelled by an explicit environment holding the outcome of each request.
-/

namespace YT

/-- Character set accepted by JS `String.prototype.trim` and `\s`
(ECMA WhiteSpace ∪ LineTerminator, incl. the Unicode space separators). -/
def isJsWhitespace (c : Char) : Bool :=
  ([9, 10, 11, 12, 13, 32, 0xa0, 0x1680, 0x2028, 0x2029, 0x202f, 0x205f,
    0x3000, 0xfeff] : List Nat).contains c.toNat ||
  decide (0x2000 ≤ c.toNat ∧ c.toNat ≤ 0x200a)

/-- JS `String.prototype.trim` on a character list: drop leading and trailing
whitespace. -/
def jsTrimList (l : List Char) : List Char :=
  ((l.dropWhile isJsWhitespace).reverse.dropWhile isJsWhitespace).reverse

/-- JS `String.prototype.trim`. -/
def jsTrim (s : String) : String :=
  (jsTrimList s.toList).asString

/-- JS `String.prototype.includes`: substring containment. -/
def strContains (s : String) (pat : String) : Bool :=
  decide (pat.toList <:+: s.toList)

/-- The `playabilityStatus` object of the player response
(`{ status: string, reason?: string }`). -/
structure PlayabilityStatus where
  status : String
  reason : Option String
deriving DecidableEq, Repr

/-- `assertPlayability` (fetch-youtube.ts lines 371-382).  The argument is
`data?.playabilityStatus`, which can be absent (`none`).  The JS
`throw`-based control flow — the `LOGIN_REQUIRED` block falling through to
the `ERROR` test and then to the final catch-all `throw` — is reproduced by
the nested conditionals. -/
def assertPlayability (ps : Option PlayabilityStatus) : Except String Unit :=
  let status := match ps with | none => "" | some p => p.status
  if status == "" || status == "OK" then Except.ok ()
  else
    let reason := match ps with | none => "" | some p => p.reason.getD ""
    if status == "LOGIN_REQUIRED" then
      if strContains reason "not a bot" then Except.error "request_blocked"
      else if strContains reason "inappropriate" then Except.error "age_restricted"
      else if status == "ERROR" && strContains reason "unavailable" then
        Except.error "video_unavailable"
      else Except.error "video_unplayable"
    else if status == "ERROR" && strContains reason "unavailable" then
      Except.error "video_unavailable"
    else Except.error "video_unplayable"

/-- The `PlayabilityGuard` rule list exactly as the spec states it (§4.5),
in order: missing status or `"OK"` passes; `"LOGIN_REQUIRED"` with reason
containing "not a bot" fails `request_blocked`; `"LOGIN_REQUIRED"` with
reason containing "inappropriate" fails `age_restricted`; `"ERROR"` with
reason containing "unavailable" fails `video_unavailable`; anything else
non-OK fails `video_unplayable`.  Specification side of the refinement for
claim C5. -/
def playabilityGuardRules (ps : Option PlayabilityStatus) : Except String Unit :=
  let status := match ps with | none => "" | some p => p.status
  let reason := match ps with | none => "" | some p => p.reason.getD ""
  if status == "" || status == "OK" then Except.ok ()
  else if status == "LOGIN_REQUIRED" && strContains reason "not a bot" then
    Except.error "request_blocked"
  else if status == "LOGIN_REQUIRED" && strContains reason "inappropriate" then
    Except.error "age_restricted"
  else if status == "ERROR" && strContains reason "unavailable" then
    Except.error "video_unavailable"
  else Except.error "video_unplayable"

/-- C5: for every `PlayabilityStatus` input, `assertPlayability` applies the
guard rules in order — missing status or "OK" passes; "LOGIN_REQUIRED" with
reason containing "not a bot" fails with request_blocked; "LOGIN_REQUIRED"
with reason containing "inappropriate" fails with age_restricted; "ERROR"
with reason containing "unavailable" fails with video_unavailable; any other
non-OK status fails with video_unplayable — and it fails in no other case. -/
theorem assertPlayability_follows_guard_rules (ps : Option PlayabilityStatus) :
    assertPlayability ps = playabilityGuardRules ps := by
  rcases ps with _ | p
  · rfl
  · unfold assertPlayability playabilityGuardRules
    simp only
    split
    · rfl
    · split
      · split
        · simp_all
        · split
          · simp_all
          · simp_all
      · simp_all

/-! ## decodeHtml (fetch-youtube.ts lines 277-284)

`decodeHtml` chains five global (`/g`) regex replaces of literal entity
patterns.  Regex-free faithful model: `replaceEnt p ps r fuel l` performs one
left-to-right all-occurrences pass replacing the literal pattern `p :: ps` by
the single character `r`.  `fuel` only makes the recursion structural (so that
the kernel can evaluate it); every caller passes `l.length`, which suffices
because each step consumes at least one character. -/

def replaceEnt (p : Char) (ps : List Char) (r : Char) : Nat → List Char → List Char
  | _, [] => []
  | 0, l => l
  | fuel + 1, c :: rest =>
    if p = c ∧ ps.isPrefixOf rest then r :: replaceEnt p ps r fuel (rest.drop ps.length)
    else c :: replaceEnt p ps r fuel rest

/-- One global replace pass (JS `s.replace(/pat/g, r)` for the literal
pattern `p :: ps`). -/
def replaceAllEnt (p : Char) (ps : List Char) (r : Char) (l : List Char) : List Char :=
  replaceEnt p ps r l.length l

def ampTail : List Char := ['a', 'm', 'p', ';']
def ltTail : List Char := ['l', 't', ';']
def gtTail : List Char := ['g', 't', ';']
def quotTail : List Char := ['q', 'u', 'o', 't', ';']
def aposTail : List Char := ['#', '3', '9', ';']

def ampPat : List Char := '&' :: ampTail
def ltPat : List Char := '&' :: ltTail
def gtPat : List Char := '&' :: gtTail
def quotPat : List Char := '&' :: quotTail
def aposPat : List Char := '&' :: aposTail

/-- `decodeHtml`: the five successive global replaces of the source, in
source order `&amp; &lt; &gt; &quot; &#39;`. -/
def decodeHtmlList (l : List Char) : List Char :=
  replaceAllEnt '&' aposTail (Char.ofNat 39)
    (replaceAllEnt '&' quotTail (Char.ofNat 34)
      (replaceAllEnt '&' gtTail '>'
        (replaceAllEnt '&' ltTail '<'
          (replaceAllEnt '&' ampTail '&' l))))

def decodeHtml (s : String) : String :=
  (decodeHtmlList s.toList).asString

/-- Claim C6's description of `decodeHtml`, used as the specification side of
the comparison: one left-to-right scan; each occurrence of one of the five
entities present in the input is replaced by its character; every other
character — including any unrecognized entity — passes through literally.
(The five entities all start with `&`, contain no further `&`, and none is a
prefix of another, so entity occurrences never overlap and this scan is well
defined; the check order below is immaterial.)  `fuel` as in `replaceEnt`. -/
def decodeOnce : Nat → List Char → List Char
  | _, [] => []
  | 0, l => l
  | fuel + 1, c :: rest =>
    if ampPat.isPrefixOf (c :: rest) then '&' :: decodeOnce fuel (rest.drop 4)
    else if ltPat.isPrefixOf (c :: rest) then '<' :: decodeOnce fuel (rest.drop 3)
    else if gtPat.isPrefixOf (c :: rest) then '>' :: decodeOnce fuel (rest.drop 3)
    else if quotPat.isPrefixOf (c :: rest) then Char.ofNat 34 :: decodeOnce fuel (rest.drop 5)
    else if aposPat.isPrefixOf (c :: rest) then Char.ofNat 39 :: decodeOnce fuel (rest.drop 4)
    else c :: decodeOnce fuel rest

def decodeHtmlSpec (s : String) : String :=
  (decodeOnce s.toList.length s.toList).asString

/-- C6 counterexample: the five replaces run in sequence, so the `&`
produced by the `&amp;` pass merges with the following text and is decoded
again by a later pass.  On `"&amp;lt;"` the code yields `"<"`, while the
claimed behaviour (decode the occurrences present in the input, pass all
other text through literally) yields `"&lt;"`. -/
theorem decodeHtml_reencoded_entity :
    decodeHtml "&amp;lt;" = "<" ∧ decodeHtmlSpec "&amp;lt;" = "&lt;" ∧
      decodeHtml "&amp;lt;" ≠ decodeHtmlSpec "&amp;lt;" :=
  ⟨by decide, by decide, by decide⟩

/-! ### Lemmas about the replace passes -/

lemma replaceEnt_fuel (p : Char) (ps : List Char) (r : Char) :
    ∀ fuel fuel' l, l.length ≤ fuel → l.length ≤ fuel' →
      replaceEnt p ps r fuel l = replaceEnt p ps r fuel' l := by
  intro fuel
  induction fuel with
  | zero =>
    intro fuel' l h _
    have hl : l = [] := List.eq_nil_of_length_eq_zero (Nat.le_zero.mp h)
    subst hl
    cases fuel' <;> rfl
  | succ n ih =>
    intro fuel' l h h'
    cases l with
    | nil => cases fuel' <;> rfl
    | cons c rest =>
      cases fuel' with
      | zero => simp at h'
      | succ m =>
        simp only [List.length_cons] at h h'
        simp only [replaceEnt]
        split
        · refine congrArg _ (ih m _ ?_ ?_) <;> simp only [List.length_drop] <;> omega
        · refine congrArg _ (ih m _ ?_ ?_) <;> omega

lemma replaceEnt_eq_replaceAllEnt (p : Char) (ps : List Char) (r : Char)
    {fuel : Nat} {l : List Char} (h : l.length ≤ fuel) :
    replaceEnt p ps r fuel l = replaceAllEnt p ps r l :=
  replaceEnt_fuel p ps r fuel l.length l h le_rfl

lemma replaceAllEnt_cons_nomatch {p : Char} {ps : List Char} {r c : Char} {l : List Char}
    (h : ¬ (p = c ∧ ps.isPrefixOf l = true)) :
    replaceAllEnt p ps r (c :: l) = c :: replaceAllEnt p ps r l := by
  simp only [replaceAllEnt, List.length_cons, replaceEnt, if_neg h]

lemma replaceAllEnt_cons_match {p : Char} {ps : List Char} {r : Char} {l : List Char}
    (h : ps.isPrefixOf l = true) :
    replaceAllEnt p ps r (p :: l) = r :: replaceAllEnt p ps r (l.drop ps.length) := by
  simp only [replaceAllEnt, List.length_cons, replaceEnt]
  rw [if_pos (show True ∧ ps.isPrefixOf l = true from ⟨trivial, h⟩)]
  refine congrArg _ (replaceEnt_eq_replaceAllEnt p ps r ?_)
  simp only [List.length_drop]
  omega

lemma replaceAllEnt_pat_append (p : Char) (ps : List Char) (r : Char) (X : List Char) :
    replaceAllEnt p ps r ((p :: ps) ++ X) = r :: replaceAllEnt p ps r X := by
  have hpre : ps.isPrefixOf (ps ++ X) = true :=
    List.isPrefixOf_iff_prefix.mpr (List.prefix_append ps X)
  rw [List.cons_append, replaceAllEnt_cons_match hpre, List.drop_left]

/-- A replace pass walks over a block `k` that cannot host the start of a
match (regardless of what follows the block). -/
lemma replaceAllEnt_append_clean (p : Char) (ps : List Char) (r : Char) :
    ∀ (k X : List Char),
      (∀ i, i < k.length → ¬ (p :: ps) <+: k.drop i ∧ ¬ k.drop i <+: (p :: ps)) →
      replaceAllEnt p ps r (k ++ X) = k ++ replaceAllEnt p ps r X := by
  intro k
  induction k with
  | nil => intro X _; rfl
  | cons c k' ih =>
    intro X h
    have h0 := h 0 (by simp)
    simp only [List.drop_zero] at h0
    have hnm : ¬ (p = c ∧ ps.isPrefixOf (k' ++ X) = true) := by
      rintro ⟨hpc, hpre⟩
      have hpat : (p :: ps) <+: (c :: k') ++ X := by
        rw [List.cons_append]
        exact List.cons_prefix_cons.mpr ⟨hpc, List.isPrefixOf_iff_prefix.mp hpre⟩
      have hck : (c :: k') <+: (c :: k') ++ X := List.prefix_append _ _
      rcases List.prefix_or_prefix_of_prefix hpat hck with hc | hc
      · exact h0.1 hc
      · exact h0.2 hc
    have hcond : ∀ i, i < k'.length → ¬ (p :: ps) <+: k'.drop i ∧ ¬ k'.drop i <+: (p :: ps) := by
      intro i hi
      have := h (i + 1) (by simp only [List.length_cons]; omega)
      simpa using this
    rw [List.cons_append, replaceAllEnt_cons_nomatch hnm, ih X hcond, List.cons_append]

/-- If a pattern-free-replacement character `r` does not occur in `Q`, then a
prefix `Q` of the output of a replace pass was already a prefix of the input. -/
lemma prefix_of_replaceEnt {p : Char} {ps : List Char} {r : Char} :
    ∀ fuel (l Q : List Char), l.length ≤ fuel → r ∉ Q →
      Q <+: replaceEnt p ps r fuel l → Q <+: l := by
  intro fuel
  induction fuel with
  | zero =>
    intro l Q h _ hQ
    have hl : l = [] := List.eq_nil_of_length_eq_zero (Nat.le_zero.mp h)
    subst hl
    have hQn : Q = [] := by simpa [replaceEnt] using hQ
    exact hQn ▸ List.nil_prefix
  | succ n ih =>
    intro l Q h hr hQ
    cases l with
    | nil =>
      have hQn : Q = [] := by simpa [replaceEnt] using hQ
      exact hQn ▸ List.nil_prefix
    | cons c rest =>
      simp only [replaceEnt] at hQ
      split at hQ
      · cases Q with
        | nil => exact List.nil_prefix
        | cons q Q' =>
          rcases List.cons_prefix_cons.mp hQ with ⟨rfl, _⟩
          exact absurd (List.mem_cons_self _ _) hr
      · cases Q with
        | nil => exact List.nil_prefix
        | cons q Q' =>
          rcases List.cons_prefix_cons.mp hQ with ⟨rfl, hQ'⟩
          have hrest : Q' <+: rest := by
            refine ih rest Q' ?_ (fun hm => hr (List.mem_cons_of_mem _ hm)) hQ'
            simp only [List.length_cons] at h
            omega
          exact List.cons_prefix_cons.mpr ⟨rfl, hrest⟩

lemma prefix_of_replaceAllEnt {p : Char} {ps : List Char} {r : Char} {l Q : List Char}
    (hr : r ∉ Q) (hQ : Q <+: replaceAllEnt p ps r l) : Q <+: l :=
  prefix_of_replaceEnt l.length l Q le_rfl hr hQ

lemma replaceAllEnt_of_not_infix {p : Char} {ps : List Char} {r : Char} :
    ∀ fuel l, l.length ≤ fuel → ¬ (p :: ps) <:+: l → replaceEnt p ps r fuel l = l := by
  intro fuel
  induction fuel with
  | zero =>
    intro l h _
    have hl : l = [] := List.eq_nil_of_length_eq_zero (Nat.le_zero.mp h)
    subst hl
    rfl
  | succ n ih =>
    intro l h hinf
    cases l with
    | nil => rfl
    | cons c rest =>
      have hnm : ¬ (p = c ∧ ps.isPrefixOf rest = true) := by
        rintro ⟨rfl, hpre⟩
        exact hinf (List.infix_cons_iff.mpr (Or.inl
          (List.cons_prefix_cons.mpr ⟨rfl, List.isPrefixOf_iff_prefix.mp hpre⟩)))
      simp only [replaceEnt, if_neg hnm]
      refine congrArg _ (ih rest ?_ ?_)
      · simp only [List.length_cons] at h; omega
      · exact fun hx => hinf (List.infix_cons_iff.mpr (Or.inr hx))

/-! ### Lemmas about the one-pass (claimed) decoder -/

/-- The claimed decoder with its canonical fuel. -/
def decodeOnceAll (l : List Char) : List Char :=
  decodeOnce l.length l

lemma decodeOnce_fuel :
    ∀ fuel fuel' l, l.length ≤ fuel → l.length ≤ fuel' →
      decodeOnce fuel l = decodeOnce fuel' l := by
  intro fuel
  induction fuel with
  | zero =>
    intro fuel' l h _
    have hl : l = [] := List.eq_nil_of_length_eq_zero (Nat.le_zero.mp h)
    subst hl
    cases fuel' <;> rfl
  | succ n ih =>
    intro fuel' l h h'
    cases l with
    | nil => cases fuel' <;> rfl
    | cons c rest =>
      cases fuel' with
      | zero => simp at h'
      | succ m =>
        simp only [List.length_cons] at h h'
        simp only [decodeOnce]
        split
        · refine congrArg _ (ih m _ ?_ ?_) <;> simp only [List.length_drop] <;> omega
        · split
          · refine congrArg _ (ih m _ ?_ ?_) <;> simp only [List.length_drop] <;> omega
          · split
            · refine congrArg _ (ih m _ ?_ ?_) <;> simp only [List.length_drop] <;> omega
            · split
              · refine congrArg _ (ih m _ ?_ ?_) <;> simp only [List.length_drop] <;> omega
              · split
                · refine congrArg _ (ih m _ ?_ ?_) <;> simp only [List.length_drop] <;> omega
                · refine congrArg _ (ih m _ ?_ ?_) <;> omega

lemma decodeOnceAll_lt (X : List Char) :
    decodeOnceAll (ltPat ++ X) = '<' :: decodeOnceAll X := by
  show decodeOnce ((ltPat ++ X).length) (ltPat ++ X) = _
  have hlen : (ltPat ++ X).length = X.length + 4 := by simp [ltPat, ltTail]
  rw [hlen]
  show decodeOnce (X.length + 3 + 1) ('&' :: 'l' :: 't' :: ';' :: X) = _
  simp only [decodeOnce]
  rw [if_neg, if_pos]
  · simp only [List.drop_succ_cons, List.drop_zero, decodeOnceAll]
    exact congrArg _ (decodeOnce_fuel _ _ _ (by omega) le_rfl)
  · simp [ltPat, ltTail, List.isPrefixOf]
  · simp [ampPat, ampTail, List.isPrefixOf]

lemma decodeOnceAll_gt (X : List Char) :
    decodeOnceAll (gtPat ++ X) = '>' :: decodeOnceAll X := by
  show decodeOnce ((gtPat ++ X).length) (gtPat ++ X) = _
  have hlen : (gtPat ++ X).length = X.length + 4 := by simp [gtPat, gtTail]
  rw [hlen]
  show decodeOnce (X.length + 3 + 1) ('&' :: 'g' :: 't' :: ';' :: X) = _
  simp only [decodeOnce]
  rw [if_neg, if_neg, if_pos]
  · simp only [List.drop_succ_cons, List.drop_zero, decodeOnceAll]
    exact congrArg _ (decodeOnce_fuel _ _ _ (by omega) le_rfl)
  · simp [gtPat, gtTail, List.isPrefixOf]
  · simp [ltPat, ltTail, List.isPrefixOf]
  · simp [ampPat, ampTail, List.isPrefixOf]

lemma decodeOnceAll_quot (X : List Char) :
    decodeOnceAll (quotPat ++ X) = Char.ofNat 34 :: decodeOnceAll X := by
  show decodeOnce ((quotPat ++ X).length) (quotPat ++ X) = _
  have hlen : (quotPat ++ X).length = X.length + 6 := by simp [quotPat, quotTail]
  rw [hlen]
  show decodeOnce (X.length + 5 + 1) ('&' :: 'q' :: 'u' :: 'o' :: 't' :: ';' :: X) = _
  simp only [decodeOnce]
  rw [if_neg, if_neg, if_neg, if_pos]
  · simp only [List.drop_succ_cons, List.drop_zero, decodeOnceAll]
    exact congrArg _ (decodeOnce_fuel _ _ _ (by omega) le_rfl)
  · simp [quotPat, quotTail, List.isPrefixOf]
  · simp [gtPat, gtTail, List.isPrefixOf]
  · simp [ltPat, ltTail, List.isPrefixOf]
  · simp [ampPat, ampTail, List.isPrefixOf]

lemma decodeOnceAll_apos (X : List Char) :
    decodeOnceAll (aposPat ++ X) = Char.ofNat 39 :: decodeOnceAll X := by
  show decodeOnce ((aposPat ++ X).length) (aposPat ++ X) = _
  have hlen : (aposPat ++ X).length = X.length + 5 := by simp [aposPat, aposTail]
  rw [hlen]
  show decodeOnce (X.length + 4 + 1) ('&' :: '#' :: '3' :: '9' :: ';' :: X) = _
  simp only [decodeOnce]
  rw [if_neg, if_neg, if_neg, if_neg, if_pos]
  · simp only [List.drop_succ_cons, List.drop_zero, decodeOnceAll]
    exact congrArg _ (decodeOnce_fuel _ _ _ (by omega) le_rfl)
  · simp [aposPat, aposTail, List.isPrefixOf]
  · simp [quotPat, quotTail, List.isPrefixOf]
  · simp [gtPat, gtTail, List.isPrefixOf]
  · simp [ltPat, ltTail, List.isPrefixOf]
  · simp [ampPat, ampTail, List.isPrefixOf]

lemma decodeOnceAll_cons_clean {c : Char} {rest : List Char}
    (hamp : ¬ ampPat <+: c :: rest) (hlt : ¬ ltPat <+: c :: rest)
    (hgt : ¬ gtPat <+: c :: rest) (hquot : ¬ quotPat <+: c :: rest)
    (hapos : ¬ aposPat <+: c :: rest) :
    decodeOnceAll (c :: rest) = c :: decodeOnceAll rest := by
  show decodeOnce ((c :: rest).length) (c :: rest) = _
  rw [List.length_cons]
  simp only [decodeOnce]
  rw [if_neg, if_neg, if_neg, if_neg, if_neg]
  · rfl
  · exact fun hb => hapos (List.isPrefixOf_iff_prefix.mp hb)
  · exact fun hb => hquot (List.isPrefixOf_iff_prefix.mp hb)
  · exact fun hb => hgt (List.isPrefixOf_iff_prefix.mp hb)
  · exact fun hb => hlt (List.isPrefixOf_iff_prefix.mp hb)
  · exact fun hb => hamp (List.isPrefixOf_iff_prefix.mp hb)

/-- The four replace passes that follow the `&amp;` pass in `decodeHtml`. -/
def decodePasses4 (l : List Char) : List Char :=
  replaceAllEnt '&' aposTail (Char.ofNat 39)
    (replaceAllEnt '&' quotTail (Char.ofNat 34)
      (replaceAllEnt '&' gtTail '>'
        (replaceAllEnt '&' ltTail '<' l)))

lemma ne_head_nomatch {p c : Char} (h : p ≠ c) (ps l : List Char) :
    ¬ (p = c ∧ ps.isPrefixOf l = true) :=
  fun hc => h hc.1

lemma decodePasses4_lt (X : List Char) :
    decodePasses4 (ltPat ++ X) = '<' :: decodePasses4 X := by
  unfold decodePasses4
  rw [show ltPat = '&' :: ltTail from rfl, replaceAllEnt_pat_append,
    replaceAllEnt_cons_nomatch (ne_head_nomatch (by decide) _ _),
    replaceAllEnt_cons_nomatch (ne_head_nomatch (by decide) _ _),
    replaceAllEnt_cons_nomatch (ne_head_nomatch (by decide) _ _)]

lemma decodePasses4_gt (X : List Char) :
    decodePasses4 (gtPat ++ X) = '>' :: decodePasses4 X := by
  unfold decodePasses4
  rw [replaceAllEnt_append_clean '&' ltTail '<' gtPat X (by decide),
    show gtPat = '&' :: gtTail from rfl, replaceAllEnt_pat_append,
    replaceAllEnt_cons_nomatch (ne_head_nomatch (by decide) _ _),
    replaceAllEnt_cons_nomatch (ne_head_nomatch (by decide) _ _)]

lemma decodePasses4_quot (X : List Char) :
    decodePasses4 (quotPat ++ X) = Char.ofNat 34 :: decodePasses4 X := by
  unfold decodePasses4
  rw [replaceAllEnt_append_clean '&' ltTail '<' quotPat X (by decide),
    replaceAllEnt_append_clean '&' gtTail '>' quotPat _ (by decide),
    show quotPat = '&' :: quotTail from rfl, replaceAllEnt_pat_append,
    replaceAllEnt_cons_nomatch (ne_head_nomatch (by decide) _ _)]

lemma decodePasses4_apos (X : List Char) :
    decodePasses4 (aposPat ++ X) = Char.ofNat 39 :: decodePasses4 X := by
  unfold decodePasses4
  rw [replaceAllEnt_append_clean '&' ltTail '<' aposPat X (by decide),
    replaceAllEnt_append_clean '&' gtTail '>' aposPat _ (by decide),
    replaceAllEnt_append_clean '&' quotTail (Char.ofNat 34) aposPat _ (by decide),
    show aposPat = '&' :: aposTail from rfl, replaceAllEnt_pat_append]

lemma decodePasses4_cons_clean {c : Char} {rest : List Char}
    (hlt : ¬ ltPat <+: c :: rest) (hgt : ¬ gtPat <+: c :: rest)
    (hquot : ¬ quotPat <+: c :: rest) (hapos : ¬ aposPat <+: c :: rest) :
    decodePasses4 (c :: rest) = c :: decodePasses4 rest := by
  unfold decodePasses4
  have hlt' : ¬ ('&' = c ∧ ltTail.isPrefixOf rest = true) := by
    rintro ⟨h1, h2⟩
    exact hlt (List.cons_prefix_cons.mpr ⟨h1, List.isPrefixOf_iff_prefix.mp h2⟩)
  rw [replaceAllEnt_cons_nomatch hlt']
  have hgt' : ¬ ('&' = c ∧ gtTail.isPrefixOf (replaceAllEnt '&' ltTail '<' rest) = true) := by
    rintro ⟨h1, h2⟩
    have h3 : gtTail <+: rest :=
      prefix_of_replaceAllEnt (by decide) (List.isPrefixOf_iff_prefix.mp h2)
    exact hgt (List.cons_prefix_cons.mpr ⟨h1, h3⟩)
  rw [replaceAllEnt_cons_nomatch hgt']
  have hquot' : ¬ ('&' = c ∧ quotTail.isPrefixOf
      (replaceAllEnt '&' gtTail '>' (replaceAllEnt '&' ltTail '<' rest)) = true) := by
    rintro ⟨h1, h2⟩
    have h3 : quotTail <+: replaceAllEnt '&' ltTail '<' rest :=
      prefix_of_replaceAllEnt (by decide) (List.isPrefixOf_iff_prefix.mp h2)
    have h4 : quotTail <+: rest := prefix_of_replaceAllEnt (by decide) h3
    exact hquot (List.cons_prefix_cons.mpr ⟨h1, h4⟩)
  rw [replaceAllEnt_cons_nomatch hquot']
  have hapos' : ¬ ('&' = c ∧ aposTail.isPrefixOf
      (replaceAllEnt '&' quotTail (Char.ofNat 34)
        (replaceAllEnt '&' gtTail '>' (replaceAllEnt '&' ltTail '<' rest))) = true) := by
    rintro ⟨h1, h2⟩
    have h3 : aposTail <+: replaceAllEnt '&' gtTail '>' (replaceAllEnt '&' ltTail '<' rest) :=
      prefix_of_replaceAllEnt (by decide) (List.isPrefixOf_iff_prefix.mp h2)
    have h4 : aposTail <+: replaceAllEnt '&' ltTail '<' rest :=
      prefix_of_replaceAllEnt (by decide) h3
    have h5 : aposTail <+: rest := prefix_of_replaceAllEnt (by decide) h4
    exact hapos (List.cons_prefix_cons.mpr ⟨h1, h5⟩)
  rw [replaceAllEnt_cons_nomatch hapos']

/-- On inputs with no `&amp;` occurrence the four remaining sequential passes
agree with the claimed one-pass decoder. -/
lemma decodePasses4_noamp :
    ∀ n l, l.length ≤ n → ¬ ampPat <:+: l → decodePasses4 l = decodeOnceAll l := by
  intro n
  induction n with
  | zero =>
    intro l h _
    have hl : l = [] := List.eq_nil_of_length_eq_zero (Nat.le_zero.mp h)
    subst hl
    rfl
  | succ n ih =>
    intro l h hamp
    cases l with
    | nil => rfl
    | cons c rest =>
      by_cases hlt : ltPat <+: (c :: rest)
      · obtain ⟨X, hX⟩ := hlt
        rw [← hX] at h hamp ⊢
        rw [decodePasses4_lt, decodeOnceAll_lt]
        refine congrArg _ (ih X ?_ ?_)
        · simp [ltPat, ltTail] at h
          omega
        · exact fun hx => hamp (hx.trans (List.suffix_append ltPat X).isInfix)
      · by_cases hgt : gtPat <+: (c :: rest)
        · obtain ⟨X, hX⟩ := hgt
          rw [← hX] at h hamp ⊢
          rw [decodePasses4_gt, decodeOnceAll_gt]
          refine congrArg _ (ih X ?_ ?_)
          · simp [gtPat, gtTail] at h
            omega
          · exact fun hx => hamp (hx.trans (List.suffix_append gtPat X).isInfix)
        · by_cases hquot : quotPat <+: (c :: rest)
          · obtain ⟨X, hX⟩ := hquot
            rw [← hX] at h hamp ⊢
            rw [decodePasses4_quot, decodeOnceAll_quot]
            refine congrArg _ (ih X ?_ ?_)
            · simp [quotPat, quotTail] at h
              omega
            · exact fun hx => hamp (hx.trans (List.suffix_append quotPat X).isInfix)
          · by_cases hapos : aposPat <+: (c :: rest)
            · obtain ⟨X, hX⟩ := hapos
              rw [← hX] at h hamp ⊢
              rw [decodePasses4_apos, decodeOnceAll_apos]
              refine congrArg _ (ih X ?_ ?_)
              · simp [aposPat, aposTail] at h
                omega
              · exact fun hx => hamp (hx.trans (List.suffix_append aposPat X).isInfix)
            · have hampP : ¬ ampPat <+: c :: rest := fun hp => hamp hp.isInfix
              rw [decodePasses4_cons_clean hlt hgt hquot hapos,
                decodeOnceAll_cons_clean hampP hlt hgt hquot hapos]
              refine congrArg _ (ih rest ?_ ?_)
              · simp only [List.length_cons] at h; omega
              · exact fun hx => hamp (List.infix_cons_iff.mpr (Or.inr hx))

lemma replaceAllEnt_id_of_not_infix {p : Char} {ps : List Char} {r : Char} {l : List Char}
    (h : ¬ (p :: ps) <:+: l) : replaceAllEnt p ps r l = l :=
  replaceAllEnt_of_not_infix l.length l le_rfl h

/-- C6 (amended): `decodeHtml` performs the five replacements as successive
global passes in the order `&amp; &lt; &gt; &quot; &#39;`; on every input
containing no occurrence of `&amp;`, each occurrence of the five entities is
replaced by its character and all other text — including any unrecognized
entity — passes through literally unchanged.  (When `&amp;` occurs, the
decoded `&` can merge with adjacent text so that later passes decode entities
not present in the input, see the counterexample.) -/
theorem decodeHtml_decodes_entities (s : String) (h : ¬ ampPat <:+: s.toList) :
    decodeHtml s = decodeHtmlSpec s := by
  have h1 : replaceAllEnt '&' ampTail '&' s.toList = s.toList :=
    replaceAllEnt_id_of_not_infix (by simpa [ampPat] using h)
  calc decodeHtml s
      = (decodePasses4 (replaceAllEnt '&' ampTail '&' s.toList)).asString := rfl
    _ = (decodePasses4 s.toList).asString := by rw [h1]
    _ = (decodeOnceAll s.toList).asString :=
        congrArg _ (decodePasses4_noamp s.toList.length s.toList le_rfl h)
    _ = decodeHtmlSpec s := rfl

/-- Witness for C6 (amended) at a concrete input exercising the other four
entities and an unrecognized one. -/
theorem decodeHtml_decodes_entities_witness :
    ¬ ampPat <:+: ("a &lt;b&gt; &quot;c&#39; &nbsp;").toList ∧
      decodeHtml "a &lt;b&gt; &quot;c&#39; &nbsp;" =
        decodeHtmlSpec "a &lt;b&gt; &quot;c&#39; &nbsp;" :=
  ⟨by decide, decodeHtml_decodes_entities _ (by decide)⟩

/-! ## String.prototype.trim facts -/

lemma dropWhile_idem (p : Char → Bool) :
    ∀ l : List Char, (l.dropWhile p).dropWhile p = l.dropWhile p := by
  intro l
  induction l with
  | nil => rfl
  | cons c rest ih =>
    by_cases h : p c
    · simp [List.dropWhile_cons, h, ih]
    · simp [List.dropWhile_cons, h]

lemma p_head_dropWhile_false (p : Char → Bool) :
    ∀ (l : List Char) (c : Char) (rest : List Char),
      l.dropWhile p = c :: rest → p c = false := by
  intro l
  induction l with
  | nil => intro c rest h; cases h
  | cons a l ih =>
    intro c rest h
    by_cases hpa : p a
    · rw [List.dropWhile_cons, if_pos hpa] at h
      exact ih _ _ h
    · rw [List.dropWhile_cons, if_neg hpa] at h
      cases h
      simpa using hpa

lemma jsTrimList_idem (l : List Char) : jsTrimList (jsTrimList l) = jsTrimList l := by
  unfold jsTrimList
  have hA : ((l.dropWhile isJsWhitespace).reverse.dropWhile isJsWhitespace).reverse.dropWhile
      isJsWhitespace =
      ((l.dropWhile isJsWhitespace).reverse.dropWhile isJsWhitespace).reverse := by
    rcases hvr : ((l.dropWhile isJsWhitespace).reverse.dropWhile isJsWhitespace).reverse with
      _ | ⟨c, w⟩
    · rfl
    · have hsuf : (l.dropWhile isJsWhitespace).reverse.dropWhile isJsWhitespace <:+
        (l.dropWhile isJsWhitespace).reverse := List.dropWhile_suffix _
      have hpre : ((l.dropWhile isJsWhitespace).reverse.dropWhile isJsWhitespace).reverse <+:
          l.dropWhile isJsWhitespace := by
        have := List.reverse_prefix.mpr hsuf
        simpa using this
      rw [hvr] at hpre
      obtain ⟨t2, ht2⟩ := hpre
      rcases hu : l.dropWhile isJsWhitespace with _ | ⟨c', u'⟩
      · rw [hu] at ht2; cases ht2
      · have hpc : isJsWhitespace c' = false := p_head_dropWhile_false _ l c' u' hu
        rw [hu] at ht2
        have hc : c = c' := by
          have := congrArg (fun x => x.head?) ht2
          simpa using this
        subst hc
        rw [List.dropWhile_cons, if_neg (by simp [hpc])]
        
  rw [hA, List.reverse_reverse, dropWhile_idem]

lemma toList_asString (l : List Char) : l.asString.toList = l := rfl

lemma jsTrim_idem (s : String) : jsTrim (jsTrim s) = jsTrim s := by
  unfold jsTrim
  rw [toList_asString, jsTrimList_idem]

lemma ne_empty_length_pos {s : String} (h : s ≠ "") : 0 < s.length := by
  cases s with
  | mk data =>
    cases data with
    | nil => exact absurd rfl h
    | cons c cs => simp [String.length]

/-! ## normalizeSegments (fetch-youtube.ts lines 198-215) -/

/-- `TranscriptSegment`: `{ text: string, startInMs: number, duration: number }`. -/
structure TranscriptSegment where
  text : String
  startInMs : Int
  duration : Int
deriving DecidableEq, Repr

/-- The dedup key built in the filter closure: `` `${s.startInMs}|${s.text}` ``. -/
def segKey (s : TranscriptSegment) : String :=
  toString s.startInMs ++ "|" ++ s.text

/-- The dedup `filter` of `normalizeSegments` with its `seen` set, modelled
operationally (the JS closure mutates `seen` while `filter` walks the list
left to right; first occurrence wins). -/
def dedupFilter : List TranscriptSegment → List String → List TranscriptSegment
  | [], _ => []
  | s :: rest, seen =>
    if segKey s ∈ seen then dedupFilter rest seen
    else s :: dedupFilter rest (segKey s :: seen)

/-- The sort order of the comparator `(a, b) => a.startInMs - b.startInMs`
(ascending). -/
def segRel (a b : TranscriptSegment) : Prop :=
  a.startInMs ≤ b.startInMs

instance : DecidableRel segRel :=
  fun a b => (inferInstance : Decidable (a.startInMs ≤ b.startInMs))

instance : IsTotal TranscriptSegment segRel :=
  ⟨fun a b => le_total a.startInMs b.startInMs⟩

instance : IsTrans TranscriptSegment segRel :=
  ⟨fun _ _ _ h1 h2 => le_trans h1 h2⟩

/-- `normalizeSegments`: filter by the null/`typeof` guard (identically true
on typed segments), trim text, drop empty text, dedup on the composite key
(first occurrence wins), stable-sort ascending by `startInMs`.  JS
`Array.prototype.sort` is stable, and a stable sort for a total preorder is
extensionally unique; it is modelled by `List.insertionSort`, which keeps
the original order of `startInMs`-ties. -/
def normalizeSegments (items : List TranscriptSegment) : List TranscriptSegment :=
  List.insertionSort segRel
    (dedupFilter
      (((items.filter fun _ => true).map
          (fun s => { text := jsTrim s.text, startInMs := s.startInMs,
                      duration := s.duration : TranscriptSegment })).filter
        (fun s => decide (0 < s.text.length)))
      [])

lemma dedupFilter_key_distinct :
    ∀ l seen, (dedupFilter l seen).Pairwise (fun a b => segKey a ≠ segKey b) ∧
      ∀ s ∈ dedupFilter l seen, segKey s ∉ seen := by
  intro l
  induction l with
  | nil => intro seen; exact ⟨List.Pairwise.nil, by simp [dedupFilter]⟩
  | cons s rest ih =>
    intro seen
    by_cases h : segKey s ∈ seen
    · simpa [dedupFilter, h] using ih seen
    · simp only [dedupFilter, if_neg h]
      obtain ⟨hp, hmem⟩ := ih (segKey s :: seen)
      refine ⟨List.Pairwise.cons ?_ hp, ?_⟩
      · intro b hb he
        exact hmem b hb (by rw [← he]; exact List.mem_cons_self _ _)
      · intro t ht
        rcases List.mem_cons.mp ht with rfl | ht'
        · exact h
        · exact fun hs => (hmem t ht') (List.mem_cons_of_mem _ hs)

lemma dedupFilter_eq_self :
    ∀ l seen, l.Pairwise (fun a b => segKey a ≠ segKey b) →
      (∀ s ∈ l, segKey s ∉ seen) → dedupFilter l seen = l := by
  intro l
  induction l with
  | nil => intro seen _ _; rfl
  | cons s rest ih =>
    intro seen hp hseen
    have hs : segKey s ∉ seen := hseen s (List.mem_cons_self _ _)
    simp only [dedupFilter, if_neg hs]
    refine congrArg _ (ih _ hp.of_cons ?_)
    intro t ht
    have hne : segKey s ≠ segKey t := List.rel_of_pairwise_cons hp ht
    intro hmem
    rcases List.mem_cons.mp hmem with he | hmem'
    · exact hne he.symm
    · exact hseen t (List.mem_cons_of_mem _ ht) hmem'

lemma dedupFilter_subset : ∀ l seen, ∀ s ∈ dedupFilter l seen, s ∈ l := by
  intro l
  induction l with
  | nil => intro seen s hs; simp [dedupFilter] at hs
  | cons a rest ih =>
    intro seen s hs
    simp only [dedupFilter] at hs
    split at hs
    · exact List.mem_cons_of_mem _ (ih seen s hs)
    · rcases List.mem_cons.mp hs with rfl | hs'
      · exact List.mem_cons_self _ _
      · exact List.mem_cons_of_mem _ (ih _ s hs')

lemma normalizeSegments_key_nodup (items : List TranscriptSegment) :
    (normalizeSegments items).Pairwise (fun a b => segKey a ≠ segKey b) := by
  unfold normalizeSegments
  have hsym : ∀ {x y : TranscriptSegment},
      segKey x ≠ segKey y → segKey y ≠ segKey x := fun h he => h he.symm
  exact ((List.perm_insertionSort segRel _).pairwise_iff hsym).mpr
    (dedupFilter_key_distinct _ []).1

lemma normalizeSegments_sorted_le (items : List TranscriptSegment) :
    (normalizeSegments items).Pairwise segRel := by
  unfold normalizeSegments
  exact List.sorted_insertionSort segRel _

lemma mem_normalizeSegments_props (items : List TranscriptSegment) :
    ∀ s ∈ normalizeSegments items, jsTrim s.text = s.text ∧ s.text ≠ "" := by
  intro s hs
  unfold normalizeSegments at hs
  rw [(List.perm_insertionSort segRel _).mem_iff] at hs
  have hs2 := dedupFilter_subset _ _ s hs
  rw [List.mem_filter] at hs2
  obtain ⟨hmap, hlen⟩ := hs2
  rw [List.mem_map] at hmap
  obtain ⟨orig, _, horig⟩ := hmap
  constructor
  · rw [← horig]
    exact jsTrim_idem orig.text
  · intro he
    rw [he] at hlen
    simp at hlen

lemma normalizeSegments_eq_self {l : List TranscriptSegment}
    (htrim : ∀ s ∈ l, jsTrim s.text = s.text ∧ s.text ≠ "")
    (hkeys : l.Pairwise (fun a b => segKey a ≠ segKey b))
    (hsort : l.Pairwise segRel) :
    normalizeSegments l = l := by
  unfold normalizeSegments
  have h1 : l.filter (fun _ => true) = l := by simp
  rw [h1]
  have h2 : l.map
      (fun s => TranscriptSegment.mk (jsTrim s.text) s.startInMs s.duration) = l := by
    have hmc : l.map
        (fun s => TranscriptSegment.mk (jsTrim s.text) s.startInMs s.duration) = l.map id := by
      refine List.map_congr_left ?_
      intro s hs
      cases s with
      | mk t st du =>
        simp only [id_eq]
        rw [TranscriptSegment.mk.injEq]
        exact ⟨(htrim _ hs).1, rfl, rfl⟩
    rw [hmc, List.map_id]
  rw [h2]
  have h3 : l.filter (fun s => decide (0 < s.text.length)) = l :=
    List.filter_eq_self.mpr (fun s hs => by
      simpa using ne_empty_length_pos (htrim s hs).2)
  rw [h3]
  rw [dedupFilter_eq_self l [] hkeys (by simp)]
  exact List.Sorted.insertionSort_eq hsort

/-- C3: for every input list, the output of `normalizeSegments` is sorted
ascending by `startInMs` and contains no two elements sharing both
`startInMs` and `text`; it is computed (see the definition) by dropping
segments with empty post-trim text (the null/`typeof` guard holds
identically on typed segments), trimming text, deduplicating on the
composite key with the first occurrence winning, and stable-sorting
ascending by `startInMs`. -/
theorem normalizeSegments_sorted_nodup (items : List TranscriptSegment) :
    (normalizeSegments items).Pairwise (fun a b => a.startInMs ≤ b.startInMs) ∧
      (normalizeSegments items).Pairwise
        (fun a b => ¬ (a.startInMs = b.startInMs ∧ a.text = b.text)) := by
  constructor
  · exact (normalizeSegments_sorted_le items).imp (fun h => h)
  · refine (normalizeSegments_key_nodup items).imp ?_
    intro a b hk hab
    exact hk (by rw [segKey, segKey, hab.1, hab.2])

/-- C7: `normalizeSegments` is idempotent — applying it to its own output
yields an identical list. -/
theorem normalizeSegments_idempotent (items : List TranscriptSegment) :
    normalizeSegments (normalizeSegments items) = normalizeSegments items :=
  normalizeSegments_eq_self (mem_normalizeSegments_props items)
    (normalizeSegments_key_nodup items) (normalizeSegments_sorted_le items)

/-! ## chooseTrack (fetch-youtube.ts lines 300-360) -/

/-- A caption track from the player response (`{ kind, languageCode,
baseUrl }`).  On typed data the source's truthiness test `t.baseUrl` is
non-emptiness of the string. -/
structure CaptionTrack where
  kind : String
  languageCode : String
  baseUrl : String
deriving DecidableEq, Repr

/-- The selection returned by `chooseTrack` (`{ url, lang }`). -/
structure PickedTrack where
  url : String
  lang : String
deriving DecidableEq, Repr

/-- `manual`: `tracks.filter((t) => t.kind !== "asr" && t.baseUrl)`. -/
def manualTracks (tracks : List CaptionTrack) : List CaptionTrack :=
  tracks.filter (fun t => t.kind != "asr" && t.baseUrl != "")

/-- `asr`: `tracks.filter((t) => t.kind === "asr" && t.baseUrl)`. -/
def asrTracks (tracks : List CaptionTrack) : List CaptionTrack :=
  tracks.filter (fun t => t.kind == "asr" && t.baseUrl != "")

/-- JS `String.prototype.toLowerCase`, modelled characterwise (agrees with
JS on the ASCII range; kernel-computable, unlike `String.toLower`). -/
def strToLower (s : String) : String :=
  (s.toList.map Char.toLower).asString

/-- JS `String.prototype.startsWith`. -/
def strStartsWith (s pre : String) : Bool :=
  pre.toList.isPrefixOf s.toList

/-- `prefs`: caller preferences (absent list means `[]`), lowercased. -/
def lowerPrefs (preferredLanguages : Option (List String)) : List String :=
  (preferredLanguages.getD []).map strToLower

/-- The inner `scan`: for each preferred language in order, find the first
track whose code matches exactly or whose lowercased code starts with the
preference (`x.languageCode || ""` degenerates to `x.languageCode` on typed
strings). -/
def scanTracks (prefs : List String) (list : List CaptionTrack) : Option CaptionTrack :=
  match prefs with
  | [] => none
  | lang :: restPrefs =>
    match list.find? (fun x =>
        x.languageCode == lang || strStartsWith (strToLower x.languageCode) lang) with
    | some t => some t
    | none => scanTracks restPrefs list

/-- The stripped pattern `"&fmt=srv3"`. -/
def fmtPat : List Char := "&fmt=srv3".toList

/-- JS `String.prototype.replace` with a **string** pattern: replaces only
the first occurrence (leftmost), here with the empty replacement. -/
def replaceFirst (pat : List Char) : List Char → List Char
  | [] => []
  | c :: rest =>
    if pat.isPrefixOf (c :: rest) then (c :: rest).drop pat.length
    else c :: replaceFirst pat rest

/-- `String(t.baseUrl).replace("&fmt=srv3", "")`. -/
def stripSrv3 (u : String) : String :=
  (replaceFirst fmtPat u.toList).asString

/-- The `{ url, lang }` object built at each return site of `chooseTrack`. -/
def pickTrack (t : CaptionTrack) : PickedTrack :=
  ⟨stripSrv3 t.baseUrl, t.languageCode⟩

/-- JS indexing `tracks[i]` for an arbitrary (possibly negative) integer. -/
def listGetInt (l : List CaptionTrack) (i : Int) : Option CaptionTrack :=
  if i < 0 then none else l.get? i.toNat

/-- `typeof defaultCaptionTrackIndex === "number" &&
tracks[defaultCaptionTrackIndex]?.baseUrl` — the step-3 candidate. -/
def defaultIndexTrack (tracks : List CaptionTrack) : Option Int → Option CaptionTrack
  | some i =>
    match listGetInt tracks i with
    | some t => if t.baseUrl != "" then some t else none
    | none => none
  | none => none

/-- The `for (const idx of defaultTranslationSourceTrackIndices)` walk:
first index pointing at a track with a truthy `baseUrl`. -/
def findByIndices (tracks : List CaptionTrack) : List Int → Option CaptionTrack
  | [] => none
  | i :: rest =>
    match listGetInt tracks i with
    | some t => if t.baseUrl != "" then some t else findByIndices tracks rest
    | none => findByIndices tracks rest

/-- `Array.isArray(defaultTranslationSourceTrackIndices)` guard plus the
index walk — the step-4 candidate. -/
def translationTrack (tracks : List CaptionTrack) : Option (List Int) → Option CaptionTrack
  | some idxs => findByIndices tracks idxs
  | none => none

/-- `chooseTrack`: the sequence of early-`return` sites of the source
encoded as nested matches — preference scan over manual then asr, default
caption track index, translation source indices, first manual, first asr,
else `null`. -/
def chooseTrack (tracks : List CaptionTrack) (preferredLanguages : Option (List String))
    (defaultCaptionTrackIndex : Option Int)
    (defaultTranslationSourceTrackIndices : Option (List Int)) : Option PickedTrack :=
  match (scanTracks (lowerPrefs preferredLanguages) (manualTracks tracks)).orElse
      (fun _ => scanTracks (lowerPrefs preferredLanguages) (asrTracks tracks)) with
  | some direct => some (pickTrack direct)
  | none =>
    match defaultIndexTrack tracks defaultCaptionTrackIndex with
    | some t => some (pickTrack t)
    | none =>
      match translationTrack tracks defaultTranslationSourceTrackIndices with
      | some t => some (pickTrack t)
      | none =>
        match (manualTracks tracks).head? with
        | some t => some (pickTrack t)
        | none =>
          match (asrTracks tracks).head? with
          | some t => some (pickTrack t)
          | none => none

/-- C4: `chooseTrack` scans all manual (non-asr) tracks against the whole
preference list, in preference order with exact or case-insensitive-prefix
matching, before considering any asr track: whenever the manual scan yields
a track, `chooseTrack` returns exactly that track's (stripped) url and
language, regardless of the asr tracks and of all default hints. -/
theorem chooseTrack_manual_scan_first
    (tracks : List CaptionTrack) (preferredLanguages : Option (List String))
    (dci : Option Int) (dtsti : Option (List Int)) (t : CaptionTrack)
    (h : scanTracks (lowerPrefs preferredLanguages) (manualTracks tracks) = some t) :
    chooseTrack tracks preferredLanguages dci dtsti = some (pickTrack t) := by
  unfold chooseTrack
  rw [h]
  rfl

/-- Witness for C4 at the spec's concrete instance: manual `es`/`en`, asr
`pt`, preferences `["pt","en"]` — the manual `en` track is selected. -/
theorem chooseTrack_manual_scan_first_witness :
    scanTracks (lowerPrefs (some ["pt", "en"]))
        (manualTracks [⟨"", "es", "https://c.example/es"⟩,
          ⟨"", "en", "https://c.example/en"⟩, ⟨"asr", "pt", "https://c.example/pt"⟩]) =
      some ⟨"", "en", "https://c.example/en"⟩ ∧
    chooseTrack [⟨"", "es", "https://c.example/es"⟩, ⟨"", "en", "https://c.example/en"⟩,
        ⟨"asr", "pt", "https://c.example/pt"⟩] (some ["pt", "en"]) none none =
      some (pickTrack ⟨"", "en", "https://c.example/en"⟩) ∧
    pickTrack ⟨"", "en", "https://c.example/en"⟩ = ⟨"https://c.example/en", "en"⟩ :=
  ⟨by decide,
    chooseTrack_manual_scan_first _ (some ["pt", "en"]) none none
      ⟨"", "en", "https://c.example/en"⟩ (by decide),
    by decide⟩

/-! ### C9: what the `&fmt=srv3` strip actually guarantees -/

/-- `"&fmt=srv3"` has no non-trivial self-overlap (no proper suffix of it is
also a prefix of it). -/
lemma fmtPat_no_self_overlap :
    ∀ k < fmtPat.length, 0 < k → fmtPat.drop (fmtPat.length - k) ≠ fmtPat.take k := by
  decide

/-- Removing the first occurrence from a string that is an occurrence-free
prefix followed by one final `&fmt=srv3` yields exactly that prefix. -/
lemma replaceFirst_append_pat :
    ∀ pre : List Char, ¬ fmtPat <:+: pre → replaceFirst fmtPat (pre ++ fmtPat) = pre := by
  intro pre
  induction pre with
  | nil => intro _; decide
  | cons a pre' ih =>
    intro hno
    have hnp : ¬ fmtPat.isPrefixOf (a :: (pre' ++ fmtPat)) = true := by
      intro hb
      have hpfx : fmtPat <+: (a :: pre') ++ fmtPat := by
        rw [List.cons_append]
        exact List.isPrefixOf_iff_prefix.mp hb
      have hck : (a :: pre') <+: (a :: pre') ++ fmtPat := List.prefix_append _ _
      rcases List.prefix_or_prefix_of_prefix hpfx hck with hc | hc
      · exact hno hc.isInfix
      · obtain ⟨rest, hrest⟩ := hc
        rcases hre : rest with _ | ⟨b, rest'⟩
        · subst hre
          rw [List.append_nil] at hrest
          exact hno (hrest ▸ List.infix_refl (a :: pre'))
        · subst hre
          obtain ⟨X, hX⟩ := hpfx
          have hcat : (b :: rest') ++ X = fmtPat := by
            have hmid : (a :: pre') ++ ((b :: rest') ++ X) = (a :: pre') ++ fmtPat := by
              rw [← List.append_assoc, hrest, hX]
            exact List.append_cancel_left hmid
          have hlen : fmtPat.length = (a :: pre').length + (b :: rest').length := by
            rw [← hrest, List.length_append]
          have hdrop : fmtPat.drop (fmtPat.length - (b :: rest').length) = b :: rest' := by
            rw [hlen, Nat.add_sub_cancel, ← hrest, List.drop_left]
          have htake : fmtPat.take (b :: rest').length = b :: rest' := by
            have hp : (b :: rest') <+: fmtPat := ⟨X, hcat⟩
            exact (List.prefix_iff_eq_take.mp hp).symm
          have hklt : (b :: rest').length < fmtPat.length := by
            rw [hlen]
            simp only [List.length_cons]
            omega
          exact fmtPat_no_self_overlap (b :: rest').length hklt (by simp)
            (hdrop.trans htake.symm)
    show replaceFirst fmtPat ((a :: pre') ++ fmtPat) = a :: pre'
    rw [List.cons_append]
    simp only [replaceFirst]
    rw [if_neg hnp]
    exact congrArg _ (ih (fun hx => hno (List.infix_cons_iff.mpr (Or.inr hx))))

/-- The url/lang object built for a selected track: the url is the track's
`baseUrl` with the first `&fmt=srv3` occurrence removed; when `baseUrl` is an
occurrence-free prefix plus one trailing `&fmt=srv3`, the url is exactly that
prefix and does not end in `&fmt=srv3`. -/
lemma pickTrack_url_spec (t : CaptionTrack) :
    ∀ pre : List Char, ¬ fmtPat <:+: pre → t.baseUrl.toList = pre ++ fmtPat →
      (pickTrack t).url.toList = pre ∧ ¬ fmtPat <:+ (pickTrack t).url.toList := by
  intro pre hno hsplit
  have hu : (pickTrack t).url.toList = pre := by
    show (stripSrv3 t.baseUrl).toList = pre
    unfold stripSrv3
    rw [toList_asString, hsplit, replaceFirst_append_pat pre hno]
  refine ⟨hu, ?_⟩
  rw [hu]
  exact fun hs => hno hs.isInfix

lemma scanTracks_mem :
    ∀ prefs (list : List CaptionTrack) t, scanTracks prefs list = some t → t ∈ list := by
  intro prefs
  induction prefs with
  | nil => intro list t h; cases h
  | cons lang restPrefs ih =>
    intro list t h
    simp only [scanTracks] at h
    rcases hf : list.find? (fun x =>
        x.languageCode == lang || strStartsWith (strToLower x.languageCode) lang) with _ | t'
    · rw [hf] at h
      exact ih list t h
    · rw [hf] at h
      cases h
      exact List.mem_of_find?_eq_some hf

lemma listGetInt_mem {l : List CaptionTrack} {i : Int} {t : CaptionTrack}
    (h : listGetInt l i = some t) : t ∈ l := by
  unfold listGetInt at h
  split at h
  · cases h
  · exact List.get?_mem h

lemma defaultIndexTrack_mem {tracks : List CaptionTrack} {dci : Option Int}
    {t : CaptionTrack} (h : defaultIndexTrack tracks dci = some t) : t ∈ tracks := by
  rcases dci with _ | i
  · cases h
  · simp only [defaultIndexTrack] at h
    rcases hg : listGetInt tracks i with _ | t'
    · rw [hg] at h; cases h
    · rw [hg] at h
      by_cases hb : (t'.baseUrl != "") = true
      · simp only [if_pos hb] at h
        cases h
        exact listGetInt_mem hg
      · simp only [if_neg hb] at h
        cases h

lemma findByIndices_mem {tracks : List CaptionTrack} :
    ∀ idxs t, findByIndices tracks idxs = some t → t ∈ tracks := by
  intro idxs
  induction idxs with
  | nil => intro t h; cases h
  | cons i rest ih =>
    intro t h
    simp only [findByIndices] at h
    rcases hg : listGetInt tracks i with _ | t'
    · rw [hg] at h
      exact ih t h
    · rw [hg] at h
      by_cases hb : (t'.baseUrl != "") = true
      · simp only [if_pos hb] at h
        cases h
        exact listGetInt_mem hg
      · simp only [if_neg hb] at h
        exact ih t h

lemma translationTrack_mem {tracks : List CaptionTrack} {dtsti : Option (List Int)}
    {t : CaptionTrack} (h : translationTrack tracks dtsti = some t) : t ∈ tracks := by
  rcases dtsti with _ | idxs
  · cases h
  · exact findByIndices_mem idxs t h

lemma head?_mem {l : List CaptionTrack} {t : CaptionTrack}
    (h : l.head? = some t) : t ∈ l :=
  List.mem_of_mem_head? (Option.mem_def.mpr h)

/-- C9 (amended): whenever `chooseTrack` returns a selection, the returned
object is built from some listed track: its `lang` is that track's language
code and its `url` is the track's `baseUrl` with the first occurrence (if
any) of the substring `&fmt=srv3` removed; in particular, when that
`baseUrl` is an `&fmt=srv3`-free prefix followed by one final `&fmt=srv3`,
the returned url is exactly that prefix and does not end in `&fmt=srv3`. -/
theorem chooseTrack_strips_first_fmt_occurrence
    (tracks : List CaptionTrack) (preferredLanguages : Option (List String))
    (dci : Option Int) (dtsti : Option (List Int)) (r : PickedTrack)
    (h : chooseTrack tracks preferredLanguages dci dtsti = some r) :
    ∃ t, t ∈ tracks ∧ r = pickTrack t ∧
      ∀ pre : List Char, ¬ fmtPat <:+: pre → t.baseUrl.toList = pre ++ fmtPat →
        r.url.toList = pre ∧ ¬ fmtPat <:+ r.url.toList := by
  simp only [chooseTrack] at h
  rcases hm : scanTracks (lowerPrefs preferredLanguages) (manualTracks tracks) with _ | td
  case _ =>
    rw [hm] at h
    rcases ha : scanTracks (lowerPrefs preferredLanguages) (asrTracks tracks) with _ | td
    case _ =>
      rw [ha] at h
      simp only [Option.orElse] at h
      rcases hd : defaultIndexTrack tracks dci with _ | td
      case _ =>
        rw [hd] at h
        rcases ht : translationTrack tracks dtsti with _ | td
        case _ =>
          rw [ht] at h
          rcases hh : (manualTracks tracks).head? with _ | td
          case _ =>
            rw [hh] at h
            rcases hh2 : (asrTracks tracks).head? with _ | td
            case _ => rw [hh2] at h; cases h
            case _ =>
              rw [hh2] at h
              obtain rfl := (Option.some.inj h).symm
              exact ⟨td, List.mem_of_mem_filter (head?_mem hh2), rfl, pickTrack_url_spec td⟩
          case _ =>
            rw [hh] at h
            obtain rfl := (Option.some.inj h).symm
            exact ⟨td, List.mem_of_mem_filter (head?_mem hh), rfl, pickTrack_url_spec td⟩
        case _ =>
          rw [ht] at h
          obtain rfl := (Option.some.inj h).symm
          exact ⟨td, translationTrack_mem ht, rfl, pickTrack_url_spec td⟩
      case _ =>
        rw [hd] at h
        obtain rfl := (Option.some.inj h).symm
        exact ⟨td, defaultIndexTrack_mem hd, rfl, pickTrack_url_spec td⟩
    case _ =>
      rw [ha] at h
      simp only [Option.orElse] at h
      obtain rfl := (Option.some.inj h).symm
      exact ⟨td, List.mem_of_mem_filter (scanTracks_mem _ _ _ ha), rfl, pickTrack_url_spec td⟩
  case _ =>
    rw [hm] at h
    simp only [Option.orElse] at h
    obtain rfl := (Option.some.inj h).symm
    exact ⟨td, List.mem_of_mem_filter (scanTracks_mem _ _ _ hm), rfl, pickTrack_url_spec td⟩

/-- Witness for C9 (amended) at a concrete track whose `baseUrl` carries one
trailing `&fmt=srv3`. -/
theorem chooseTrack_strips_first_fmt_occurrence_witness :
    chooseTrack [⟨"", "en", "https://u.example/c&fmt=srv3"⟩] none none none =
      some ⟨"https://u.example/c", "en"⟩ ∧
    ∃ t, t ∈ [(⟨"", "en", "https://u.example/c&fmt=srv3"⟩ : CaptionTrack)] ∧
      (⟨"https://u.example/c", "en"⟩ : PickedTrack) = pickTrack t ∧
      ∀ pre : List Char, ¬ fmtPat <:+: pre → t.baseUrl.toList = pre ++ fmtPat →
        (⟨"https://u.example/c", "en"⟩ : PickedTrack).url.toList = pre ∧
          ¬ fmtPat <:+ (⟨"https://u.example/c", "en"⟩ : PickedTrack).url.toList :=
  ⟨by decide,
    chooseTrack_strips_first_fmt_occurrence _ none none none _ (by decide)⟩

/-- C9 counterexample: `replace("&fmt=srv3", "")` removes only the first
occurrence, so with a `baseUrl` containing two occurrences the returned URL
still ends in `&fmt=srv3` — the claim's "never ends in &fmt=srv3, for every
track list" is false. -/
theorem chooseTrack_url_can_end_in_fmt :
    chooseTrack [⟨"", "en", "a&fmt=srv3&fmt=srv3"⟩] none none none =
        some ⟨"a&fmt=srv3", "en"⟩ ∧
      fmtPat <:+ ("a&fmt=srv3").toList :=
  ⟨by decide, by decide⟩

/-! ## extractVideoId (fetch-youtube.ts lines 46-51)

The regex
`(?:https?:\/\/)?(?:www\.)?(?:youtube\.com\/(?:watch\?v=|embed\/|v\/|live\/)|youtu\.be\/)([\w-]{11})`
is implemented as an explicit scanner: `String.match` without `/g` finds the
leftmost match, and at a given start position the engine tries the optional
scheme (with `https` before `http` — `s?` is greedy — and presence before
absence), then the optional `www.`, then the host alternation left to
right, then captures exactly eleven `[\w-]` characters. -/

/-- The character class `[\w-]`. -/
def isWordDash (c : Char) : Bool :=
  c.isAlpha || c.isDigit || c == '_' || c == '-'

/-- Alternatives of `(?:https?:\/\/)?` in backtracking order. -/
def schemeOpts : List (List Char) := ["https://".toList, "http://".toList, []]

/-- Alternatives of `(?:www\.)?` in backtracking order. -/
def wwwOpts : List (List Char) := ["www.".toList, []]

/-- The host alternation, left to right. -/
def hostMarkers : List (List Char) :=
  ["youtube.com/watch?v=".toList, "youtube.com/embed/".toList,
   "youtube.com/v/".toList, "youtube.com/live/".toList, "youtu.be/".toList]

/-- The capture `([\w-]{11})`: exactly eleven class characters (anything may
follow). -/
def takeId (s : List Char) : Option (List Char) :=
  let tok := s.take 11
  if tok.length = 11 ∧ tok.all isWordDash then some tok else none

/-- Try the whole pattern anchored at this position, enumerating the
backtracking alternatives in the engine's order. -/
def tryShapesAt (s : List Char) : Option (List Char) :=
  schemeOpts.findSome? fun sch =>
    if sch.isPrefixOf s then
      wwwOpts.findSome? fun w =>
        if w.isPrefixOf (s.drop sch.length) then
          hostMarkers.findSome? fun hm =>
            if hm.isPrefixOf ((s.drop sch.length).drop w.length) then
              takeId (((s.drop sch.length).drop w.length).drop hm.length)
            else none
        else none
    else none

/-- Leftmost match: scan candidate start positions left to right. -/
def scanMatchId : List Char → Option (List Char)
  | [] => none
  | c :: rest =>
    match tryShapesAt (c :: rest) with
    | some tok => some tok
    | none => scanMatchId rest

/-- `extractVideoId`: the first match's capture group, or null. -/
def extractVideoId (url : String) : Option String :=
  (scanMatchId url.toList).map List.asString

lemma isPrefixOf_append_self (p s : List Char) : p.isPrefixOf (p ++ s) = true :=
  List.isPrefixOf_iff_prefix.mpr (List.prefix_append p s)

lemma prefixOf_incomparable {p q : List Char} (h1 : ¬ p <+: q) (h2 : ¬ q <+: p)
    (r : List Char) : p.isPrefixOf (q ++ r) = false := by
  rw [Bool.eq_false_iff]
  intro hb
  have hp : p <+: q ++ r := List.isPrefixOf_iff_prefix.mp hb
  have hq : q <+: q ++ r := List.prefix_append _ _
  rcases List.prefix_or_prefix_of_prefix hp hq with hc | hc
  · exact h1 hc
  · exact h2 hc

lemma takeId_exact {tl : List Char} (hlen : tl.length = 11)
    (hall : tl.all isWordDash = true) : takeId tl = some tl := by
  have htl : tl.take 11 = tl := by
    rw [← hlen]
    exact List.take_length tl
  unfold takeId
  simp only [htl]
  rw [if_pos ⟨hlen, hall⟩]

lemma tryShapes_watch {tl : List Char} (hlen : tl.length = 11)
    (hall : tl.all isWordDash = true) :
    tryShapesAt ("https://www.youtube.com/watch?v=".toList ++ tl) = some tl := by
  rw [show "https://www.youtube.com/watch?v=".toList ++ tl =
    "https://".toList ++ ("www.".toList ++ ("youtube.com/watch?v=".toList ++ tl)) from rfl]
  simp [tryShapesAt, schemeOpts, wwwOpts, hostMarkers, List.findSome?,
    isPrefixOf_append_self, takeId_exact hlen hall]

lemma tryShapes_short {tl : List Char} (hlen : tl.length = 11)
    (hall : tl.all isWordDash = true) :
    tryShapesAt ("https://youtu.be/".toList ++ tl) = some tl := by
  rw [show "https://youtu.be/".toList ++ tl =
    "https://".toList ++ ("youtu.be/".toList ++ tl) from rfl]
  have h1 : ("www.".toList).isPrefixOf ("youtu.be/".toList ++ tl) = false :=
    prefixOf_incomparable (by decide) (by decide) tl
  have h2 : ("youtube.com/watch?v=".toList).isPrefixOf ("youtu.be/".toList ++ tl) = false :=
    prefixOf_incomparable (by decide) (by decide) tl
  have h3 : ("youtube.com/embed/".toList).isPrefixOf ("youtu.be/".toList ++ tl) = false :=
    prefixOf_incomparable (by decide) (by decide) tl
  have h4 : ("youtube.com/v/".toList).isPrefixOf ("youtu.be/".toList ++ tl) = false :=
    prefixOf_incomparable (by decide) (by decide) tl
  have h5 : ("youtube.com/live/".toList).isPrefixOf ("youtu.be/".toList ++ tl) = false :=
    prefixOf_incomparable (by decide) (by decide) tl
  simp [tryShapesAt, schemeOpts, wwwOpts, hostMarkers, List.findSome?,
    isPrefixOf_append_self, h1, h2, h3, h4, h5, takeId_exact hlen hall]

lemma tryShapes_embed {tl : List Char} (hlen : tl.length = 11)
    (hall : tl.all isWordDash = true) :
    tryShapesAt ("https://www.youtube.com/embed/".toList ++ tl) = some tl := by
  rw [show "https://www.youtube.com/embed/".toList ++ tl =
    "https://".toList ++ ("www.".toList ++ ("youtube.com/embed/".toList ++ tl)) from rfl]
  have h2 : ("youtube.com/watch?v=".toList).isPrefixOf
      ("youtube.com/embed/".toList ++ tl) = false :=
    prefixOf_incomparable (by decide) (by decide) tl
  simp [tryShapesAt, schemeOpts, wwwOpts, hostMarkers, List.findSome?,
    isPrefixOf_append_self, h2, takeId_exact hlen hall]

lemma tryShapes_v {tl : List Char} (hlen : tl.length = 11)
    (hall : tl.all isWordDash = true) :
    tryShapesAt ("https://www.youtube.com/v/".toList ++ tl) = some tl := by
  rw [show "https://www.youtube.com/v/".toList ++ tl =
    "https://".toList ++ ("www.".toList ++ ("youtube.com/v/".toList ++ tl)) from rfl]
  have h2 : ("youtube.com/watch?v=".toList).isPrefixOf
      ("youtube.com/v/".toList ++ tl) = false :=
    prefixOf_incomparable (by decide) (by decide) tl
  have h3 : ("youtube.com/embed/".toList).isPrefixOf
      ("youtube.com/v/".toList ++ tl) = false :=
    prefixOf_incomparable (by decide) (by decide) tl
  simp [tryShapesAt, schemeOpts, wwwOpts, hostMarkers, List.findSome?,
    isPrefixOf_append_self, h2, h3, takeId_exact hlen hall]

lemma tryShapes_live {tl : List Char} (hlen : tl.length = 11)
    (hall : tl.all isWordDash = true) :
    tryShapesAt ("https://www.youtube.com/live/".toList ++ tl) = some tl := by
  rw [show "https://www.youtube.com/live/".toList ++ tl =
    "https://".toList ++ ("www.".toList ++ ("youtube.com/live/".toList ++ tl)) from rfl]
  have h2 : ("youtube.com/watch?v=".toList).isPrefixOf
      ("youtube.com/live/".toList ++ tl) = false :=
    prefixOf_incomparable (by decide) (by decide) tl
  have h3 : ("youtube.com/embed/".toList).isPrefixOf
      ("youtube.com/live/".toList ++ tl) = false :=
    prefixOf_incomparable (by decide) (by decide) tl
  have h4 : ("youtube.com/v/".toList).isPrefixOf
      ("youtube.com/live/".toList ++ tl) = false :=
    prefixOf_incomparable (by decide) (by decide) tl
  simp [tryShapesAt, schemeOpts, wwwOpts, hostMarkers, List.findSome?,
    isPrefixOf_append_self, h2, h3, h4, takeId_exact hlen hall]

lemma scanMatchId_cons_some {c : Char} {rest tok : List Char}
    (h : tryShapesAt (c :: rest) = some tok) : scanMatchId (c :: rest) = some tok := by
  simp [scanMatchId, h]

lemma toList_append (a b : String) : (a ++ b).toList = a.toList ++ b.toList :=
  String.data_append a b

/-- C8: for every 11-character token over `[A-Za-z0-9_-]`, each of the five
supported URL shapes built from that token yields exactly that token. -/
theorem extractVideoId_five_shapes (t : String)
    (hlen : t.toList.length = 11) (hall : t.toList.all isWordDash = true) :
    extractVideoId ("https://www.youtube.com/watch?v=" ++ t) = some t ∧
    extractVideoId ("https://youtu.be/" ++ t) = some t ∧
    extractVideoId ("https://www.youtube.com/embed/" ++ t) = some t ∧
    extractVideoId ("https://www.youtube.com/v/" ++ t) = some t ∧
    extractVideoId ("https://www.youtube.com/live/" ++ t) = some t := by
  refine ⟨?_, ?_, ?_, ?_, ?_⟩
  · unfold extractVideoId
    rw [toList_append]
    have hs : scanMatchId ("https://www.youtube.com/watch?v=".toList ++ t.toList) = some t.toList := by
      rw [show "https://www.youtube.com/watch?v=".toList ++ t.toList =
        'h' :: ("ttps://www.youtube.com/watch?v=".toList ++ t.toList) from rfl]
      exact scanMatchId_cons_some (tryShapes_watch hlen hall)
    rw [hs]
    rfl
  · unfold extractVideoId
    rw [toList_append]
    have hs : scanMatchId ("https://youtu.be/".toList ++ t.toList) = some t.toList := by
      rw [show "https://youtu.be/".toList ++ t.toList =
        'h' :: ("ttps://youtu.be/".toList ++ t.toList) from rfl]
      exact scanMatchId_cons_some (tryShapes_short hlen hall)
    rw [hs]
    rfl
  · unfold extractVideoId
    rw [toList_append]
    have hs : scanMatchId ("https://www.youtube.com/embed/".toList ++ t.toList) = some t.toList := by
      rw [show "https://www.youtube.com/embed/".toList ++ t.toList =
        'h' :: ("ttps://www.youtube.com/embed/".toList ++ t.toList) from rfl]
      exact scanMatchId_cons_some (tryShapes_embed hlen hall)
    rw [hs]
    rfl
  · unfold extractVideoId
    rw [toList_append]
    have hs : scanMatchId ("https://www.youtube.com/v/".toList ++ t.toList) = some t.toList := by
      rw [show "https://www.youtube.com/v/".toList ++ t.toList =
        'h' :: ("ttps://www.youtube.com/v/".toList ++ t.toList) from rfl]
      exact scanMatchId_cons_some (tryShapes_v hlen hall)
    rw [hs]
    rfl
  · unfold extractVideoId
    rw [toList_append]
    have hs : scanMatchId ("https://www.youtube.com/live/".toList ++ t.toList) = some t.toList := by
      rw [show "https://www.youtube.com/live/".toList ++ t.toList =
        'h' :: ("ttps://www.youtube.com/live/".toList ++ t.toList) from rfl]
      exact scanMatchId_cons_some (tryShapes_live hlen hall)
    rw [hs]
    rfl

/-- Witness for C8 at the concrete token `dQw4w9WgXcQ`. -/
theorem extractVideoId_five_shapes_witness :
    ("dQw4w9WgXcQ").toList.length = 11 ∧
    ("dQw4w9WgXcQ").toList.all isWordDash = true ∧
    (extractVideoId ("https://www.youtube.com/watch?v=" ++ "dQw4w9WgXcQ") =
        some "dQw4w9WgXcQ" ∧
      extractVideoId ("https://youtu.be/" ++ "dQw4w9WgXcQ") = some "dQw4w9WgXcQ" ∧
      extractVideoId ("https://www.youtube.com/embed/" ++ "dQw4w9WgXcQ") =
        some "dQw4w9WgXcQ" ∧
      extractVideoId ("https://www.youtube.com/v/" ++ "dQw4w9WgXcQ") =
        some "dQw4w9WgXcQ" ∧
      extractVideoId ("https://www.youtube.com/live/" ++ "dQw4w9WgXcQ") =
        some "dQw4w9WgXcQ") :=
  ⟨by decide, by decide, extractVideoId_five_shapes "dQw4w9WgXcQ" (by decide) (by decide)⟩

/-! ## Caption XML parsing (fetch-youtube.ts lines 223-270)

The two dialect regexes are implemented as explicit scanners with the
engine's backtracking order.  Greedy `[^>]*` pieces followed by a literal
that **can** occur inside the class are enumerated longest-first with full
backtracking; a greedy class followed by a literal **excluded** from the
class (`([^"]+)"`, `(\d+)"`, `[^>]*>`) can only complete on the maximal
run, so only that run is tried; the lazy `([\s\S]*?)` takes the shortest
stretch up to the next closing literal. -/

/-- The double-quote character. -/
def qc : Char := Char.ofNat 34

/-- Match a literal at the front, returning the remainder. -/
def dropPre (pre s : List Char) : Option (List Char) :=
  if pre.isPrefixOf s then some (s.drop pre.length) else none

/-- Index of the first occurrence of a literal. -/
def findSubIdx (pat : List Char) : List Char → Option Nat
  | [] => if pat.isPrefixOf [] then some 0 else none
  | c :: rest =>
    if pat.isPrefixOf (c :: rest) then some 0
    else (findSubIdx pat rest).map (· + 1)

def startAttr : List Char := "start=".toList ++ [qc]
def durAttr : List Char := "dur=".toList ++ [qc]

/-- Match the dialect-A regex
`<text[^>]*start="([^"]+)"[^>]*dur="([^"]+)"[^>]*>([\s\S]*?)<\/text>`
anchored at this position; returns the three capture groups and the
remainder after the match. -/
def matchTextAt (s : List Char) :
    Option ((List Char × List Char × List Char) × List Char) :=
  (dropPre "<text".toList s).bind fun s1 =>
  (List.range ((s1.takeWhile (· != '>')).length + 1)).reverse.findSome? fun k1 =>
    (dropPre startAttr (s1.drop k1)).bind fun s2 =>
    let g1 := s2.takeWhile (· != qc)
    if g1 = [] then none else
    (dropPre [qc] (s2.drop g1.length)).bind fun s3 =>
    (List.range ((s3.takeWhile (· != '>')).length + 1)).reverse.findSome? fun k2 =>
      (dropPre durAttr (s3.drop k2)).bind fun s4 =>
      let g2 := s4.takeWhile (· != qc)
      if g2 = [] then none else
      (dropPre [qc] (s4.drop g2.length)).bind fun s5 =>
      (dropPre ['>'] (s5.drop (s5.takeWhile (· != '>')).length)).bind fun s6 =>
      (findSubIdx "</text>".toList s6).map fun i =>
        ((g1, g2, s6.take i), s6.drop (i + 7))

/-- `matchAll` for dialect A: repeated leftmost search, resuming after each
match.  `fuel` (always called with the input length) makes the recursion
structural; each step consumes at least one character. -/
def matchAllTexts : Nat → List Char → List (List Char × List Char × List Char)
  | _, [] => []
  | 0, _ => []
  | fuel + 1, c :: rest =>
    match matchTextAt (c :: rest) with
    | some (groups, remainder) => groups :: matchAllTexts fuel remainder
    | none => matchAllTexts fuel rest

/-- Digit-string value. -/
def natOfDigits (l : List Char) : Nat :=
  l.foldl (fun a c => 10 * a + (c.toNat - 48)) 0

/-- JS `Number(...)` on caption attribute strings, as an exact scaled
decimal: the result represents `p / q` with `q` a power of ten.  Inputs
outside plain `[+-]?digits[.digits]` shape (where JS would produce `NaN` or
need float semantics) map to `0 / 1`; no theorem below depends on the
numeric values. -/
def jsNumberScaled (s : String) : Int × Int :=
  let signed : List Char → Int × List Char := fun l =>
    match l with
    | '-' :: m => (-1, m)
    | '+' :: m => (1, m)
    | m => (1, m)
  let (sign, m) := signed s.toList
  let ip := m.takeWhile Char.isDigit
  let rest := m.drop ip.length
  match rest with
  | [] => if ip = [] then (0, 1) else (sign * (natOfDigits ip : Int), 1)
  | c :: fp =>
    if c = '.' ∧ fp ≠ [] ∧ fp.all Char.isDigit then
      (sign * ((natOfDigits ip : Int) * (10 : Int) ^ fp.length + (natOfDigits fp : Int)),
        (10 : Int) ^ fp.length)
    else (0, 1)

/-- `Math.round(x * 1000)` for `x = p / q` (`q > 0`):
`⌊1000·p/q + 1/2⌋ = fdiv (2000·p + q) (2·q)` — JS rounds half toward `+∞`,
which is floor of the value plus one half. -/
def roundMul1000 (pq : Int × Int) : Int :=
  Int.fdiv (2 * (1000 * pq.1) + pq.2) (2 * pq.2)

/-- `parseTranscriptTexts` loop body over the match list: decode entities,
trim, drop empty text, convert seconds to rounded milliseconds. -/
def buildTextSegments : List (List Char × List Char × List Char) → List TranscriptSegment
  | [] => []
  | (g1, g2, g3) :: ms =>
    let text := jsTrim (decodeHtml g3.asString)
    if text = "" then buildTextSegments ms
    else { text := text,
           startInMs := roundMul1000 (jsNumberScaled g1.asString),
           duration := roundMul1000 (jsNumberScaled g2.asString) } :: buildTextSegments ms

/-- `parseTranscriptTexts` (lines 234-248). -/
def parseTranscriptTexts (xml : String) : List TranscriptSegment :=
  buildTextSegments (matchAllTexts xml.toList.length xml.toList)

/-- `[A-Za-z0-9_]`, the `\w` class used by the `\b` assertions. -/
def isWordCh (c : Char) : Bool :=
  c.isAlpha || c.isDigit || c == '_'

def tAttr : List Char := "t=".toList ++ [qc]
def dAttr : List Char := "d=".toList ++ [qc]

/-- Match the dialect-B regex
`<p[^>]*\bt="(\d+)"[^>]*\bd="(\d+)"[^>]*>([\s\S]*?)<\/p>` anchored at
this position.  The `\b` before `t`/`d` requires the preceding character to
be a non-word character; at backtracking offset 0 the preceding characters
are the `p` of `<p` and the quote closing the `t` attribute respectively. -/
def matchPAt (s : List Char) :
    Option ((List Char × List Char × List Char) × List Char) :=
  (dropPre "<p".toList s).bind fun s1 =>
  (List.range ((s1.takeWhile (· != '>')).length + 1)).reverse.findSome? fun k1 =>
    (('p' :: s1).get? k1).bind fun pc1 =>
    if isWordCh pc1 then none else
    (dropPre tAttr (s1.drop k1)).bind fun s2 =>
    let g1 := s2.takeWhile Char.isDigit
    if g1 = [] then none else
    (dropPre [qc] (s2.drop g1.length)).bind fun s3 =>
    (List.range ((s3.takeWhile (· != '>')).length + 1)).reverse.findSome? fun k2 =>
      ((qc :: s3).get? k2).bind fun pc2 =>
      if isWordCh pc2 then none else
      (dropPre dAttr (s3.drop k2)).bind fun s4 =>
      let g2 := s4.takeWhile Char.isDigit
      if g2 = [] then none else
      (dropPre [qc] (s4.drop g2.length)).bind fun s5 =>
      (dropPre ['>'] (s5.drop (s5.takeWhile (· != '>')).length)).bind fun s6 =>
      (findSubIdx "</p>".toList s6).map fun i =>
        ((g1, g2, s6.take i), s6.drop (i + 4))

/-- `matchAll` for dialect B. -/
def matchAllPs : Nat → List Char → List (List Char × List Char × List Char)
  | _, [] => []
  | 0, _ => []
  | fuel + 1, c :: rest =>
    match matchPAt (c :: rest) with
    | some (groups, remainder) => groups :: matchAllPs fuel remainder
    | none => matchAllPs fuel rest

/-- `inner.replace(/<[^>]+>/g, "")`: drop `<`…`>` runs with at least one
character between; a `<` without such a closing `>` stays.  `fuel` as
elsewhere. -/
def stripTags : Nat → List Char → List Char
  | _, [] => []
  | 0, l => l
  | fuel + 1, c :: rest =>
    if c = '<' then
      let run := (rest.takeWhile (· != '>')).length
      if 0 < run ∧ run < rest.length then stripTags fuel (rest.drop (run + 1))
      else c :: stripTags fuel rest
    else c :: stripTags fuel rest

def stripTagsAll (l : List Char) : List Char :=
  stripTags l.length l

/-- `parseTimedtext` loop body: strip inner markup, decode entities, trim,
drop empty text; `t`/`d` are already integer milliseconds. -/
def buildPSegments : List (List Char × List Char × List Char) → List TranscriptSegment
  | [] => []
  | (g1, g2, g3) :: ms =>
    let text := jsTrim (decodeHtml (stripTagsAll g3).asString)
    if text = "" then buildPSegments ms
    else { text := text,
           startInMs := (natOfDigits g1 : Int),
           duration := (natOfDigits g2 : Int) } :: buildPSegments ms

/-- `parseTimedtext` (lines 255-270). -/
def parseTimedtext (xml : String) : List TranscriptSegment :=
  buildPSegments (matchAllPs xml.toList.length xml.toList)

/-- `parseSegments` (lines 223-227): dialect A first, dialect B when A
yields nothing. -/
def parseSegments (xml : String) : List TranscriptSegment :=
  if 0 < (parseTranscriptTexts xml).length then parseTranscriptTexts xml
  else parseTimedtext xml

lemma buildTextSegments_props :
    ∀ ms, ∀ seg ∈ buildTextSegments ms, seg.text ≠ "" ∧ jsTrim seg.text = seg.text := by
  intro ms
  induction ms with
  | nil => intro seg hs; cases hs
  | cons m rest ih =>
    obtain ⟨g1, g2, g3⟩ := m
    intro seg hs
    simp only [buildTextSegments] at hs
    split at hs
    · exact ih seg hs
    · rcases List.mem_cons.mp hs with rfl | hs'
      · refine ⟨by assumption, jsTrim_idem _⟩
      · exact ih seg hs'

lemma buildPSegments_props :
    ∀ ms, ∀ seg ∈ buildPSegments ms, seg.text ≠ "" ∧ jsTrim seg.text = seg.text := by
  intro ms
  induction ms with
  | nil => intro seg hs; cases hs
  | cons m rest ih =>
    obtain ⟨g1, g2, g3⟩ := m
    intro seg hs
    simp only [buildPSegments] at hs
    split at hs
    · exact ih seg hs
    · rcases List.mem_cons.mp hs with rfl | hs'
      · refine ⟨by assumption, jsTrim_idem _⟩
      · exact ih seg hs'

/-- C10: every segment produced by `parseSegments` — via either dialect
parser — has text that is non-empty and already trimmed: the dialect
parsers themselves trim and drop empty-text matches, before
`normalizeSegments` ever runs. -/
theorem parseSegments_text_trimmed_nonempty (xml : String) :
    ∀ seg ∈ parseSegments xml, seg.text ≠ "" ∧ jsTrim seg.text = seg.text := by
  intro seg hs
  unfold parseSegments at hs
  split at hs
  · exact buildTextSegments_props _ seg hs
  · exact buildPSegments_props _ seg hs

/-- Witness for C10 at a concrete dialect-A document whose caption text
carries surrounding whitespace. -/
theorem parseSegments_text_trimmed_nonempty_witness :
    (⟨"hi", 1000, 2000⟩ : TranscriptSegment) ∈
        parseSegments "<transcript><text start=\"1\" dur=\"2\"> hi </text></transcript>" ∧
      ((⟨"hi", 1000, 2000⟩ : TranscriptSegment).text ≠ "" ∧
        jsTrim (⟨"hi", 1000, 2000⟩ : TranscriptSegment).text =
          (⟨"hi", 1000, 2000⟩ : TranscriptSegment).text) :=
  ⟨by decide,
    parseSegments_text_trimmed_nonempty
      "<transcript><text start=\"1\" dur=\"2\"> hi </text></transcript>" _ (by decide)⟩

/-! ## The transcriptYt pipeline (fetch-youtube.ts lines 8-22, 82-179)
and the API route (src/pages/api/youtube.ts)

Network effects are modelled by an environment holding each request's
outcome: the first and (consent-retry) second watch-page GET, the Innertube
player POST, and the caption GET.  An `Except.error` with an arbitrary
message covers every way the corresponding call can throw (transport
errors, `String(res.status)` from `fetchText`, `ip_blocked` on 429,
`yt_request_failed_<status>`), so theorems quantified over the environment
cover every behaviour of the network calls. -/

/-- One entry of `audioTracks`; `defaultCaptionTrackIndex` is `none` when
the field is absent or not a number (the source checks `typeof ===
"number"`). -/
structure AudioTrack where
  defaultCaptionTrackIndex : Option Int

/-- `playerCaptionsTracklistRenderer`, restricted to the fields read. -/
structure TracklistRenderer where
  captionTracks : Option (List CaptionTrack)
  audioTracks : Option (List AudioTrack)
  defaultTranslationSourceTrackIndices : Option (List Int)

/-- `captions` member of the player response. -/
structure Captions where
  playerCaptionsTracklistRenderer : Option TracklistRenderer

/-- The parsed Innertube player JSON, restricted to the fields read. -/
structure PlayerResponse where
  playabilityStatus : Option PlayabilityStatus
  captions : Option Captions

/-- Outcomes of the four network requests a pipeline run can make. -/
structure NetEnv where
  watch1 : Except String String
  watch2 : Except String String
  player : Except String PlayerResponse
  caption : Except String String

/-- Literal `"INNERTUBE_API_KEY":` of the key regex (line 156). -/
def innertubeKeyLit : List Char :=
  qc :: ("INNERTUBE_API_KEY".toList ++ [qc, ':'])

/-- Match `"INNERTUBE_API_KEY":\s*"([a-zA-Z0-9_-]+)"` anchored here.  `\s*`
is greedy and `"` is not whitespace, and the key class excludes `"`, so in
both places only the maximal run can complete the match. -/
def apiKeyAt (s : List Char) : Option (List Char) :=
  (dropPre innertubeKeyLit s).bind fun s1 =>
  (dropPre [qc] (s1.dropWhile isJsWhitespace)).bind fun s2 =>
  let g := s2.takeWhile isWordDash
  if g = [] then none else
  (dropPre [qc] (s2.drop g.length)).map fun _ => g

def scanApiKey : List Char → Option (List Char)
  | [] => none
  | c :: rest =>
    match apiKeyAt (c :: rest) with
    | some g => some g
    | none => scanApiKey rest

/-- `extractInnertubeApiKey` (lines 155-158). -/
def extractInnertubeApiKey (html : String) : Option String :=
  (scanApiKey html.toList).map List.asString

/-- The consent-form marker `action="https://consent.youtube.com/s"`. -/
def consentMarker : List Char :=
  "action=".toList ++ [qc] ++ "https://consent.youtube.com/s".toList ++ [qc]

/-- JS line terminators — excluded by `.` without the `s` flag. -/
def isLineTerminator (c : Char) : Bool :=
  c.toNat = 10 || c.toNat = 13 || c.toNat = 0x2028 || c.toNat = 0x2029

/-- Literal `name="v" value="`. -/
def consentVLit : List Char :=
  "name=".toList ++ [qc, 'v', qc, ' '] ++ "value=".toList ++ [qc]

/-- Match `name="v" value="(.*?)"` anchored here: the lazy group is the
shortest stretch of `.`-class (non-line-terminator) characters followed by
`"`. -/
def consentVAt (s : List Char) : Option (List Char) :=
  (dropPre consentVLit s).bind fun s1 =>
  let g := s1.takeWhile (· != qc)
  if g.all (fun c => !(isLineTerminator c)) ∧ g.length < s1.length then some g
  else none

def scanConsentV : List Char → Option (List Char)
  | [] => none
  | c :: rest =>
    match consentVAt (c :: rest) with
    | some g => some g
    | none => scanConsentV rest

/-- `fetchWatchHtml` (lines 8-22) with both GETs drawn from the
environment; the consent cookie built from the extracted `v` only shapes
the second request, whose outcome the environment already models. -/
def fetchWatchHtml (env : NetEnv) : Except String String :=
  match env.watch1 with
  | Except.error e => Except.error e
  | Except.ok html =>
    if consentMarker <:+: html.toList then
      match scanConsentV html.toList with
      | none => Except.error "consent_cookie_create_failed"
      | some _ =>
        match env.watch2 with
        | Except.error e => Except.error e
        | Except.ok html2 =>
          if consentMarker <:+: html2.toList then Except.error "consent_cookie_invalid"
          else Except.ok html2
    else Except.ok html

/-- A classified failure `{ category, message }`. -/
structure ErrorRecord where
  category : String
  message : String
deriving DecidableEq, Repr

/-- `logError` (lines 384-386) writes `[category] message` to the console
and nothing else; the records it emits are collected in the pipeline result
below.  It does not store the record in any module state. -/
def logError (category message : String) : ErrorRecord :=
  ⟨category, message⟩

/-- The `catch` block of `transcriptYt` (lines 134-147). -/
def classifyCatch (msg : String) : ErrorRecord :=
  if strContains msg "yt_request_failed_" || msg == "ip_blocked" then
    logError "network_error" msg
  else if msg == "video_unavailable" || msg == "video_unplayable" ||
      msg == "age_restricted" || msg == "request_blocked" then
    logError "inaccessible" msg
  else logError "other_error" (if msg == "" then "unexpected_error" else msg)

/-- `{ videoUrl, preferredLanguages? }`. -/
structure TranscriptYtArgs where
  videoUrl : String
  preferredLanguages : Option (List String)

/-- The `try` body of `transcriptYt` (lines 83-133): `Except.error` is a
thrown error reaching the `catch`; `Except.ok (none, log)` is an early
`return null` after a `logError`; `Except.ok (some segs, [])` is success. -/
def transcriptYtRun (args : TranscriptYtArgs) (env : NetEnv) :
    Except String (Option (List TranscriptSegment) × List ErrorRecord) :=
  match extractVideoId args.videoUrl with
  | none => Except.ok (none, [logError "invalid_url" "unable_to_extract_video_id"])
  | some _ =>
    match fetchWatchHtml env with
    | Except.error e => Except.error e
    | Except.ok html =>
      match extractInnertubeApiKey html with
      | none => Except.ok (none, [logError "inaccessible" "innertube_api_key_not_found"])
      | some _ =>
        match env.player with
        | Except.error e => Except.error e
        | Except.ok data =>
          match assertPlayability data.playabilityStatus with
          | Except.error e => Except.error e
          | Except.ok _ =>
            match ((data.captions.bind
                Captions.playerCaptionsTracklistRenderer).bind
                TracklistRenderer.captionTracks).getD [] with
            | [] => Except.ok (none, [logError "no_captions" "no_caption_tracks_found"])
            | tr :: trs =>
              match chooseTrack (tr :: trs) args.preferredLanguages
                  ((((data.captions.bind Captions.playerCaptionsTracklistRenderer).bind
                      TracklistRenderer.audioTracks).getD []).head?.bind
                    AudioTrack.defaultCaptionTrackIndex)
                  ((data.captions.bind Captions.playerCaptionsTracklistRenderer).bind
                    TracklistRenderer.defaultTranslationSourceTrackIndices) with
              | none => Except.ok (none, [logError "no_captions" "no_suitable_track_found"])
              | some _picked =>
                match env.caption with
                | Except.error e => Except.error e
                | Except.ok xml =>
                  match normalizeSegments (parseSegments xml) with
                  | [] => Except.ok (none,
                      [logError "no_captions" "no_segments_after_parsing"])
                  | seg :: segs => Except.ok (some (seg :: segs), [])

/-- `transcriptYt` (lines 82-148): the `try`/`catch` wrapper.  Total by
construction — every internal failure is caught and becomes an absence
result with a classified record. -/
def transcriptYt (args : TranscriptYtArgs) (env : NetEnv) :
    Option (List TranscriptSegment) × List ErrorRecord :=
  match transcriptYtRun args env with
  | Except.ok r => r
  | Except.error e => (none, [classifyCatch e])

lemma transcriptYtRun_ok (args : TranscriptYtArgs) (env : NetEnv)
    (r : Option (List TranscriptSegment) × List ErrorRecord)
    (h : transcriptYtRun args env = Except.ok r) :
    r.1 = none ∨ ∃ s rest, r.1 = some (s :: rest) := by
  unfold transcriptYtRun at h
  repeat' split at h
  all_goals cases h
  all_goals simp

/-- C1: for every input and every behaviour of the network calls,
`transcriptYt` returns either the absence signal `none` or a non-empty
segment list: it is a total function by construction (every internal
failure is caught and classified into an absence result — it never raises
past its own boundary), and whenever it returns a list, that list is
non-empty. -/
theorem transcriptYt_never_empty (args : TranscriptYtArgs) (env : NetEnv)
    (l : List TranscriptSegment) (h : (transcriptYt args env).1 = some l) :
    l ≠ [] := by
  unfold transcriptYt at h
  cases hr : transcriptYtRun args env with
  | error e => rw [hr] at h; simp at h
  | ok r =>
    rw [hr] at h
    rcases transcriptYtRun_ok args env r hr with h1 | ⟨s, rest, h2⟩
    · rw [h1] at h; cases h
    · rw [h2] at h
      cases h
      exact List.cons_ne_nil s rest

/-- Concrete request for the C1 witness. -/
def c1Args : TranscriptYtArgs :=
  ⟨"https://youtu.be/abcdefghijk", none⟩

/-- Concrete network outcomes for the C1 witness: a key-bearing watch page
without a consent wall, an OK playable response with one manual `en` track,
and a dialect-A caption document. -/
def c1Env : NetEnv :=
  ⟨Except.ok "x \"INNERTUBE_API_KEY\": \"AIzaTestKey1\" x",
   Except.ok "",
   Except.ok ⟨some ⟨"OK", none⟩,
     some ⟨some ⟨some [⟨"", "en", "https://cap.example/en"⟩], none, none⟩⟩⟩,
   Except.ok "<transcript><text start=\"1\" dur=\"2\">hi</text></transcript>"⟩

/-- Witness for C1: a complete successful pipeline run through a concrete
environment. -/
theorem transcriptYt_never_empty_witness :
    (transcriptYt c1Args c1Env).1 = some [⟨"hi", 1000, 2000⟩] ∧
    ([(⟨"hi", 1000, 2000⟩ : TranscriptSegment)] : List TranscriptSegment) ≠ [] :=
  ⟨by decide,
    transcriptYt_never_empty c1Args c1Env [⟨"hi", 1000, 2000⟩] (by decide)⟩

/-- `lastError` as imported by `src/pages/api/youtube.ts` (line 2):
`fetch-youtube.ts` declares and exports no such binding — `logError` only
writes to the console — so the route's named import never observes any
recorded error.  Modelled as the constantly absent record. -/
def lastError : Option ErrorRecord := none

/-- The JSON body/status of the route's `Response`s, restricted to the
fields the route writes (`none` = field absent or JSON `null`). -/
structure ApiResponse where
  status : Nat
  message : Option String
  reason : Option String
  category : Option String
  transcription : Option String
deriving DecidableEq, Repr

/-- The route's `GET` (src/pages/api/youtube.ts): falsy (missing or empty)
`videoUrl` → 400; otherwise run the pipeline with preferences
`["pt","en"]`, concatenate `" " + text` over the segments, answer 404 with
`lastError` details when the concatenation is empty, else 200. -/
def GET (videoUrl : Option String) (env : NetEnv) : ApiResponse :=
  match videoUrl with
  | none => ⟨400, some "Video URL is required", none, none, none⟩
  | some u =>
    if u = "" then ⟨400, some "Video URL is required", none, none, none⟩
    else
      let textOnly := (((transcriptYt ⟨u, some ["pt", "en"]⟩ env).1).getD []).foldl
        (fun acc tr => acc ++ " " ++ tr.text) ""
      if textOnly = "" then
        ⟨404, some "No transcript available.", lastError.map ErrorRecord.message,
          lastError.map ErrorRecord.category, none⟩
      else ⟨200, none, none, none, some textOnly⟩

/-- C2 (code-bug evidence): on a failing invocation the pipeline classifies
and logs the failure (`invalid_url` here), but the 404 response carries
`category = null` and `reason = null`: `logError` never stores the record,
`fetch-youtube.ts` exports no `lastError`, and the route's import of it
(youtube.ts line 2) therefore never sees the classified failure the claim
says is exposed. -/
theorem lastError_not_exposed (env : NetEnv) :
    (transcriptYt ⟨"not-a-url", some ["pt", "en"]⟩ env).2 =
        [logError "invalid_url" "unable_to_extract_video_id"] ∧
      GET (some "not-a-url") env =
        ⟨404, some "No transcript available.", none, none, none⟩ :=
  ⟨rfl, rfl⟩

end YT
